import Mathlib

/-!
Verification of the debugger-settings registry (`src/plugins/debugger/debuggeractions.cpp`)
and of the abstract timeline model exercised by
`tests/auto/qmlprofiler/abstracttimelinemodel/tst_abstracttimelinemodel.cpp`.

Qt strings (`QString`) are embedded as `List Char`; the gdb-binary-to-toolchain
multimap (`QMultiMap<QString, int>`, declared in the absent `debuggeractions.h`)
is embedded as an association list kept in key-sorted iteration order, with
equal-key runs ordered most-recently-inserted first, matching `QMultiMap`.
The settings store is restricted to the values below the
`GdbBinaries21/GdbBinary` key root, which is the only part of the store the
gdb-binary code reads or writes.
-/

/-- A Qt string, embedded as its sequence of characters. -/
abbrev QStr := List Char

/-- The gdb-binary-to-toolchain multimap, in iteration order. -/
abbrev MMap := List (QStr × Int)

/-- Decimal digit character for a digit value, as produced by `QString::number`. -/
def digitChar : Nat → Char
  | 0 => '0' | 1 => '1' | 2 => '2' | 3 => '3' | 4 => '4'
  | 5 => '5' | 6 => '6' | 7 => '7' | 8 => '8' | _ => '9'

/-- Decimal digits of `n`, least significant first, with explicit fuel so that
the definition is structural and kernel-evaluable. -/
def natDigitsRevFuel : Nat → Nat → List Char
  | 0, _ => []
  | fuel + 1, n => if n = 0 then [] else digitChar (n % 10) :: natDigitsRevFuel fuel (n / 10)

/-- Decimal representation of a natural number, most significant digit first. -/
def natDigits (n : Nat) : List Char :=
  if n = 0 then ['0'] else (natDigitsRevFuel n n).reverse

/-- Embedding of `QString::number(int)`. -/
def qNumber (v : Int) : QStr :=
  if v < 0 then '-' :: natDigits v.natAbs else natDigits v.natAbs

/-- Whether a character is a decimal digit. -/
def isDigitCh (c : Char) : Bool :=
  decide (48 ≤ c.toNat ∧ c.toNat ≤ 57)

/-- Value of a digit string, most significant digit first. -/
def digitsVal (s : QStr) : Nat :=
  s.foldl (fun a c => a * 10 + (c.toNat - 48)) 0

/-- Embedding of `QString::toInt` restricted to unsigned digit strings:
returns 0 when the string is empty or contains a non-digit, as Qt does. -/
def qToNat (s : QStr) : Nat :=
  if s ≠ [] ∧ s.all isDigitCh = true then digitsVal s else 0

/-- Embedding of `QString::toInt`: an optional leading minus sign followed by
digits; any malformed string converts to 0, as Qt does. -/
def qToInt (s : QStr) : Int :=
  match s with
  | [] => 0
  | c :: rest => if c = '-' then -(qToNat rest : Int) else (qToNat (c :: rest) : Int)

/-- Embedding of `QString::split(QLatin1Char(','))` with Qt's default
`KeepEmptyParts`: the empty string yields one empty part. -/
def splitOnComma : QStr → List QStr
  | [] => [[]]
  | c :: rest =>
    if c = ',' then [] :: splitOnComma rest
    else
      match splitOnComma rest with
      | [] => [[c]]
      | t :: ts => (c :: t) :: ts

/-- Lexicographic comparison of Qt strings, embedding `QString::operator<`
(character-code comparison). -/
def strLt : QStr → QStr → Bool
  | [], [] => false
  | [], _ :: _ => true
  | _ :: _, [] => false
  | a :: as, b :: bs => if a < b then true else if b < a then false else strLt as bs

/-- Embedding of `QMultiMap::insert`: the new pair is placed before the first
entry whose key is not less than the new key, so that among equal keys the most
recently inserted value comes first, as in Qt. -/
def mmInsert : MMap → QStr → Int → MMap
  | [], k, v => [(k, v)]
  | (k0, v0) :: rest, k, v =>
    if strLt k0 k then (k0, v0) :: mmInsert rest k v
    else (k, v) :: (k0, v0) :: rest

/-- Embedding of `QMap::key(value)`: the first key bound to `value` in
iteration order, or the default-constructed (empty) string when absent. -/
def mmKey : MMap → Int → QStr
  | [], _ => []
  | (k, v0) :: rest, v => if v0 = v then k else mmKey rest v

/-- One checked insertion from `gdbBinaryToolChainMapFromSettings`: the
"paranoia" check skips the pair when some binary is already configured for the
toolchain (the skipped case only emits a `qWarning`). -/
def insertChecked (m : MMap) (binary : QStr) (toolChain : Int) : MMap :=
  if mmKey m toolChain = [] then mmInsert m binary toolChain else m

/-- Processing of one settings value split at commas: the front token is the
binary, every further token is parsed with `toInt` and inserted checked. -/
def insertTokens : MMap → List QStr → MMap
  | m, [] => m
  | m, binary :: tcs => tcs.foldl (fun acc t => insertChecked acc binary (qToInt t)) m

/-- Modelled from the spec: the toolchain codes `GCC`, `LINUX_ICC`, `OTHER` and
`UNKNOWN` come from `projectexplorer/toolchain.h`, which is absent from the
sources; the concrete numerals are immaterial to every claim. -/
def toolChainGCC : Int := 0

/-- Modelled from the spec: see `toolChainGCC`. -/
def toolChainLinuxICC : Int := 1

/-- Modelled from the spec: see `toolChainGCC`. -/
def toolChainOther : Int := 200

/-- Modelled from the spec: see `toolChainGCC`. -/
def toolChainUnknown : Int := 201

/-- The Linux default map built by `gdbBinaryToolChainMapFromSettings` under
`Q_OS_UNIX` when the decoded map is empty: four inserts of the binary "gdb". -/
def linuxDefaults : MMap :=
  mmInsert (mmInsert (mmInsert (mmInsert []
    ['g', 'd', 'b'] toolChainGCC)
    ['g', 'd', 'b'] toolChainLinuxICC)
    ['g', 'd', 'b'] toolChainOther)
    ['g', 'd', 'b'] toolChainUnknown

/-- The body of the reading loop of `gdbBinaryToolChainMapFromSettings`, over
the list of values stored under `GdbBinaries21/GdbBinary1`, `...2`, ...: stop
at the first empty value or value with fewer than two comma-separated tokens,
otherwise fold the tokens into the map and continue with the next index. -/
def decodeEntries : MMap → List QStr → MMap
  | m, [] => m
  | m, v :: rest =>
    if v = [] then m
    else if (splitOnComma v).length < 2 then m
    else decodeEntries (insertTokens m (splitOnComma v)) rest

/-- Embedding of `DebuggerSettings::gdbBinaryToolChainMapFromSettings`: decode
the flat settings list into the multimap; when the result is empty the
`Q_OS_UNIX` defaults are installed. -/
def gdbBinaryToolChainMapFromSettings (store : List QStr) : MMap :=
  if decodeEntries [] store = [] then linuxDefaults else decodeEntries [] store

/-- Embedding of `QStringList::back().append(...)`: append to the last element.
Calling `back()` on an empty list is undefined behaviour in Qt; the model
returns the empty list there, and every theorem's hypotheses exclude it. -/
def appendToBack : List QStr → QStr → List QStr
  | [], _ => []
  | [x], s => [x ++ s]
  | x :: y :: rest, s => x :: appendToBack (y :: rest) s

/-- One iteration of the writing loop of `DebuggerSettings::writeSettings`:
state is `(lastBinary, settingsList)`; a key different from `lastBinary`
starts a new entry, then the toolchain is appended to the last entry. -/
def encodeStep (st : QStr × List QStr) (kv : QStr × Int) : QStr × List QStr :=
  (kv.1,
   appendToBack (if kv.1 = st.1 then st.2 else st.2 ++ [kv.1]) (',' :: qNumber kv.2))

/-- The flat settings list written by `DebuggerSettings::writeSettings`:
the encoded entries followed by the empty terminator entry. -/
def settingsListOfMap (m : MMap) : List QStr :=
  (m.foldl encodeStep ([], [])).2 ++ [[]]

/-- Embedding of the gdb-binaries part of `DebuggerSettings::writeSettings`:
when the in-memory map equals the decoded store the group is left untouched;
otherwise all keys in the group are removed and the encoded list is written at
indices 1..count. (The per-item `SavedAction` writes touch only the `DebugMode`
group, outside the modelled store.) -/
def writeSettings (m : MMap) (store : List QStr) : List QStr :=
  if m = gdbBinaryToolChainMapFromSettings store then store
  else settingsListOfMap m

/-- The reading loop of `gdbBinaryToolChainMapFromSettings` in raw form: an
unbounded `for (int i = 1; ; i++)` over a store valuation, given explicit fuel;
`none` means the fuel ran out before the loop stopped. -/
def decodeLoopFuel (store : Nat → QStr) : Nat → Nat → MMap → Option MMap
  | 0, _, _ => none
  | fuel + 1, i, m =>
    if store i = [] then some m
    else if (splitOnComma (store i)).length < 2 then some m
    else decodeLoopFuel store fuel (i + 1) (insertTokens m (splitOnComma (store i)))

/-- The settings value encoding one map entry: binary, comma, toolchain number. -/
def entryStr (p : QStr × Int) : QStr :=
  p.1 ++ ',' :: qNumber p.2

/-- Iteration order of a canonical `QMultiMap`: keys never decrease along the
list (equal adjacent keys form the run of one binary). -/
def isCanonicalMMap : MMap → Bool
  | [] => true
  | [_] => true
  | p :: q :: rest => !(strLt q.1 p.1) && isCanonicalMMap (q :: rest)

/-- A settings value, embedding the `QVariant` states the registry stores. -/
inductive QVariant where
  | invalid
  | vBool (b : Bool)
  | vInt (n : Int)
  | vString (s : QStr)
deriving DecidableEq

/-- ASCII lower-casing of one character, for `QVariant::toBool`'s
case-insensitive string test. -/
def asciiLower (c : Char) : Char :=
  if 65 ≤ c.toNat ∧ c.toNat ≤ 90 then Char.ofNat (c.toNat + 32) else c

/-- Embedding of `QVariant::toBool`: an invalid variant is false, a number is
true when non-zero, a string is true unless its lower-cased content is empty,
"0" or "false". -/
def QVariant.toBool : QVariant → Bool
  | .invalid => false
  | .vBool b => b
  | .vInt n => decide (n ≠ 0)
  | .vString s =>
    !(s.map asciiLower = [] ∨ s.map asciiLower = ['0'] ∨
      s.map asciiLower = ['f', 'a', 'l', 's', 'e'] : Bool)

/-- Embedding of `QVariant::toString`: an invalid variant gives the empty
string, a boolean "true" or "false", a number its decimal representation. -/
def QVariant.toQString : QVariant → QStr
  | .invalid => []
  | .vBool b => if b then ['t', 'r', 'u', 'e'] else ['f', 'a', 'l', 's', 'e']
  | .vInt n => qNumber n
  | .vString s => s

/-- Modelled from the spec: the observable state of a `Utils::SavedAction`
(`utils/savedaction.h` is absent from the sources); the registry claims only
need its current value, settings key and default value. -/
structure SavedAction where
  value : QVariant
  settingsKey : QStr := []
  defaultValue : QVariant := .invalid
deriving DecidableEq

/-- The registry state of `DebuggerSettings`: the `m_items` hash from integer
action codes to registered `SavedAction`s. -/
structure DebuggerSettings where
  items : List (Int × SavedAction)
deriving DecidableEq

/-- Embedding of `m_items.value(code, 0)`: lookup with null (`none`) default. -/
def findCode : List (Int × SavedAction) → Int → Option SavedAction
  | [], _ => none
  | (c, a) :: rest, code => if c = code then some a else findCode rest code

/-- Embedding of `m_items.contains(code)`. -/
def DebuggerSettings.containsCode (s : DebuggerSettings) (code : Int) : Bool :=
  (findCode s.items code).isSome

/-- Embedding of `m_items[code] = item`: bind `code` to `item`, replacing any
previous binding. -/
def setCode : List (Int × SavedAction) → Int → SavedAction → List (Int × SavedAction)
  | [], code, a => [(code, a)]
  | (c, b) :: rest, code, a =>
    if c = code then (code, a) :: rest else (c, b) :: setCode rest code a

/-- Embedding of `DebuggerSettings::insertItem`: the first `QTC_ASSERT` returns
without touching the registry when the code is already registered; the second
`QTC_ASSERT` (missing default value) only prints a warning and changes nothing. -/
def DebuggerSettings.insertItem (s : DebuggerSettings) (code : Int)
    (item : SavedAction) : DebuggerSettings :=
  if s.containsCode code then s else ⟨setCode s.items code item⟩

/-- Embedding of `DebuggerSettings::item`: the `QTC_ASSERT` returns the null
pointer (`none`) when no action is registered, and otherwise the registered
action; the method is `const`, so the state is returned unchanged. -/
def DebuggerSettings.itemSt (s : DebuggerSettings) (code : Int) :
    Option SavedAction × DebuggerSettings :=
  (findCode s.items code, s)

/-- The result component of `DebuggerSettings::item`. -/
def DebuggerSettings.item (s : DebuggerSettings) (code : Int) : Option SavedAction :=
  findCode s.items code

/-- Embedding of `theDebuggerBoolSetting`: `instance()->item(code)->value().toBool()`,
with the null-pointer dereference of an unregistered code embedded as `none`. -/
def theDebuggerBoolSetting (s : DebuggerSettings) (code : Int) : Option Bool :=
  (s.item code).map (fun a => a.value.toBool)

/-- Embedding of `theDebuggerStringSetting`:
`instance()->item(code)->value().toString()`. -/
def theDebuggerStringSetting (s : DebuggerSettings) (code : Int) : Option QStr :=
  (s.item code).map (fun a => a.value.toQString)

/-- The default row height of the timeline model, `DefaultRowHeight = 30`. -/
def defaultRowHeight : Nat := 30

/-- Modelled from the spec: the observable state of `AbstractTimelineModel`
(`qmlprofiler/abstracttimelinemodel.cpp` is absent from the sources; only its
unit test is provided). Row heights are stored per row and only surface while
the model is expanded. -/
structure TimelineModel where
  expanded : Bool
  hidden : Bool
  rowHeights : List (Nat × Nat)
deriving DecidableEq

/-- The stored height of a row, defaulting to `defaultRowHeight`. -/
def lookupHeight : List (Nat × Nat) → Nat → Nat
  | [], _ => defaultRowHeight
  | (r, h) :: rest, row => if r = row then h else lookupHeight rest row

/-- Store a height for a row, replacing any previous entry. -/
def storeHeight : List (Nat × Nat) → Nat → Nat → List (Nat × Nat)
  | [], row, h => [(row, h)]
  | (r, h0) :: rest, row, h =>
    if r = row then (row, h) :: rest else (r, h0) :: storeHeight rest row h

/-- Modelled from the spec: `rowHeight` reports the stored height while the
model is expanded and the default height of 30 while it is collapsed. -/
def TimelineModel.rowHeight (s : TimelineModel) (row : Nat) : Nat :=
  if s.expanded then lookupHeight s.rowHeights row else defaultRowHeight

/-- Modelled from the spec: `setRowHeight` has no effect while the model is not
expanded and no effect for a height below the default; otherwise it stores the
height for the row. -/
def TimelineModel.setRowHeight (s : TimelineModel) (row h : Nat) : TimelineModel :=
  if s.expanded = false then s
  else if h < defaultRowHeight then s
  else { s with rowHeights := storeHeight s.rowHeights row h }

/-- Modelled from the spec: `setExpanded` stores the flag and emits
`expandedChanged` (the returned boolean) exactly when the flag changes. -/
def TimelineModel.setExpanded (s : TimelineModel) (b : Bool) : TimelineModel × Bool :=
  if b = s.expanded then (s, false) else ({ s with expanded := b }, true)

/-- Modelled from the spec: `setHidden` stores the flag and emits
`hiddenChanged` (the returned boolean) exactly when the flag changes. -/
def TimelineModel.setHidden (s : TimelineModel) (b : Bool) : TimelineModel × Bool :=
  if b = s.hidden then (s, false) else ({ s with hidden := b }, true)

/-- An HSL color, embedding the `QColor::fromHsl` values the test compares. -/
structure QColorHsl where
  hue : Int
  saturation : Int
  lightness : Int
deriving DecidableEq

/-- Modelled from the spec: `colorByHue` produces the HSL color with hue taken
modulo 360, saturation 150 and lightness 166. -/
def colorByHue (h : Int) : QColorHsl :=
  ⟨h % 360, 150, 166⟩

/-- Modelled from the spec: `colorBySelectionId` colors by the selection id
scaled by 25, as checked by `tst_AbstractTimelineModel::colorByTypeId`. -/
def colorBySelectionId (i : Int) : QColorHsl :=
  colorByHue (i * 25)

/-- Big-step relation of the reading loop of
`gdbBinaryToolChainMapFromSettings`, one constructor per way an iteration can
behave: stop on an empty value, stop on fewer than two tokens, or fold the
tokens and continue with the next index. -/
inductive DecodeLoopRel (store : Nat → QStr) : Nat → MMap → MMap → Prop where
  | stopEmpty (i : Nat) (m : MMap) :
      store i = [] → DecodeLoopRel store i m m
  | stopTokens (i : Nat) (m : MMap) :
      store i ≠ [] → (splitOnComma (store i)).length < 2 → DecodeLoopRel store i m m
  | step (i : Nat) (m r : MMap) :
      store i ≠ [] → ¬(splitOnComma (store i)).length < 2 →
      DecodeLoopRel store (i + 1) (insertTokens m (splitOnComma (store i))) r →
      DecodeLoopRel store i m r

/-- Big-step relation of the gdb-binaries part of
`DebuggerSettings::writeSettings`: either the guard holds and the store is
untouched, or the group is rewritten from the in-memory map. -/
inductive WriteSettingsRel (m : MMap) (store : List QStr) : List QStr → Prop where
  | unchanged : m = gdbBinaryToolChainMapFromSettings store → WriteSettingsRel m store store
  | rewritten : m ≠ gdbBinaryToolChainMapFromSettings store →
      WriteSettingsRel m store (settingsListOfMap m)

/-- Big-step relation of the registry query `DebuggerSettings::item`:
result and final state of one call. -/
inductive ItemRel (s : DebuggerSettings) (code : Int) :
    Option SavedAction × DebuggerSettings → Prop where
  | query : ItemRel s code (findCode s.items code, s)

/-- Well-formedness of stored timeline row heights: every stored height is at
least the default; `setRowHeight` can store nothing smaller. -/
def heightsWF (s : TimelineModel) : Prop :=
  ∀ p ∈ s.rowHeights, defaultRowHeight ≤ p.2

theorem digitChar_isDigit (d : Nat) : isDigitCh (digitChar d) = true := by
  rcases d with _ | _ | _ | _ | _ | _ | _ | _ | _ | d <;> rfl

theorem digitChar_toNat (d : Nat) (h : d < 10) : (digitChar d).toNat - 48 = d := by
  interval_cases d <;> rfl

theorem isDigitCh_ne_dash {c : Char} (h : isDigitCh c = true) : c ≠ '-' := by
  intro hc
  subst hc
  exact absurd h (by decide)

theorem isDigitCh_ne_comma {c : Char} (h : isDigitCh c = true) : c ≠ ',' := by
  intro hc
  subst hc
  exact absurd h (by decide)

theorem natDigitsRevFuel_foldr (fuel : Nat) :
    ∀ n, n ≤ fuel →
      (natDigitsRevFuel fuel n).foldr (fun c a => a * 10 + (c.toNat - 48)) 0 = n := by
  induction fuel with
  | zero => intro n hn; interval_cases n; rfl
  | succ fuel ih =>
    intro n hn
    rw [natDigitsRevFuel]
    by_cases h0 : n = 0
    · simp [h0]
    · have hdiv : n / 10 < n := Nat.div_lt_self (Nat.pos_of_ne_zero h0) (by decide)
      have hle : n / 10 ≤ fuel := by omega
      simp only [h0, if_false, List.foldr_cons, ih (n / 10) hle]
      have hmod : n % 10 < 10 := Nat.mod_lt _ (by decide)
      rw [digitChar_toNat (n % 10) hmod]
      omega

theorem natDigitsRevFuel_digits (fuel : Nat) :
    ∀ n c, c ∈ natDigitsRevFuel fuel n → isDigitCh c = true := by
  induction fuel with
  | zero => intro n c hc; simp [natDigitsRevFuel] at hc
  | succ fuel ih =>
    intro n c hc
    rw [natDigitsRevFuel] at hc
    by_cases h0 : n = 0
    · simp [h0] at hc
    · simp only [h0, if_false, List.mem_cons] at hc
      rcases hc with hc | hc
      · exact hc ▸ digitChar_isDigit (n % 10)
      · exact ih (n / 10) c hc

theorem natDigitsRevFuel_ne_nil (fuel n : Nat) (h0 : n ≠ 0) (hf : fuel ≠ 0) :
    natDigitsRevFuel fuel n ≠ [] := by
  rcases fuel with _ | fuel
  · exact absurd rfl hf
  · rw [natDigitsRevFuel]
    simp [h0]

theorem natDigits_digits {n : Nat} {c : Char} (hc : c ∈ natDigits n) : isDigitCh c = true := by
  unfold natDigits at hc
  by_cases h0 : n = 0
  · simp [h0] at hc
    exact hc ▸ (by decide)
  · simp only [h0, if_false, List.mem_reverse] at hc
    exact natDigitsRevFuel_digits n n c hc

theorem natDigits_ne_nil (n : Nat) : natDigits n ≠ [] := by
  unfold natDigits
  by_cases h0 : n = 0
  · simp [h0]
  · simp only [h0, if_false, ne_eq, List.reverse_eq_nil_iff]
    exact natDigitsRevFuel_ne_nil n n h0 h0

theorem digitsVal_natDigits (n : Nat) : digitsVal (natDigits n) = n := by
  unfold natDigits
  by_cases h0 : n = 0
  · simp [h0, digitsVal]
  · simp only [h0, if_false, digitsVal, List.foldl_reverse]
    exact natDigitsRevFuel_foldr n n (Nat.le_refl n)

theorem qToNat_natDigits (n : Nat) : qToNat (natDigits n) = n := by
  unfold qToNat
  rw [if_pos]
  · exact digitsVal_natDigits n
  · refine ⟨natDigits_ne_nil n, ?_⟩
    rw [List.all_eq_true]
    intro c hc
    exact natDigits_digits hc

theorem qToInt_qNumber (v : Int) : qToInt (qNumber v) = v := by
  unfold qNumber
  by_cases hv : v < 0
  · simp only [hv, if_true, qToInt, if_pos rfl, qToNat_natDigits]
    omega
  · simp only [hv, if_false]
    obtain ⟨c, rest, hcr⟩ := List.exists_cons_of_ne_nil (natDigits_ne_nil v.natAbs)
    rw [hcr]
    have hcd : isDigitCh c = true := natDigits_digits (hcr ▸ List.mem_cons_self c rest)
    rw [qToInt, if_neg (isDigitCh_ne_dash hcd), ← hcr, qToNat_natDigits]
    omega

theorem qNumber_no_comma (v : Int) : ',' ∉ qNumber v := by
  intro hmem
  unfold qNumber at hmem
  by_cases hv : v < 0
  · simp only [hv, if_true, List.mem_cons] at hmem
    rcases hmem with h | h
    · exact absurd h.symm (by decide)
    · exact absurd rfl (isDigitCh_ne_comma (natDigits_digits h))
  · simp only [hv, if_false] at hmem
    exact absurd rfl (isDigitCh_ne_comma (natDigits_digits hmem))

theorem splitOnComma_ne_nil (s : QStr) : splitOnComma s ≠ [] := by
  induction s with
  | nil => simp [splitOnComma]
  | cons c rest ih =>
    rw [splitOnComma]
    by_cases hc : c = ','
    · simp [hc]
    · simp only [hc, if_false]
      rcases h : splitOnComma rest with _ | ⟨t, ts⟩
      · simp
      · simp

theorem splitOnComma_no_comma {s : QStr} (h : ',' ∉ s) : splitOnComma s = [s] := by
  induction s with
  | nil => rfl
  | cons c rest ih =>
    have hc : c ≠ ',' := fun hc => h (hc ▸ List.mem_cons_self c rest)
    have hrest : ',' ∉ rest := fun hm => h (List.mem_cons_of_mem c hm)
    rw [splitOnComma, if_neg (fun hcc => hc hcc), ih hrest]

theorem splitOnComma_append {k : QStr} (t : QStr) (h : ',' ∉ k) :
    splitOnComma (k ++ ',' :: t) = k :: splitOnComma t := by
  induction k with
  | nil => simp [splitOnComma]
  | cons c rest ih =>
    have hc : c ≠ ',' := fun hc => h (hc ▸ List.mem_cons_self c rest)
    have hrest : ',' ∉ rest := fun hm => h (List.mem_cons_of_mem c hm)
    rw [List.cons_append, splitOnComma, if_neg (fun hcc => hc hcc), ih hrest]

theorem strLt_irrefl (s : QStr) : strLt s s = false := by
  induction s with
  | nil => rfl
  | cons a as ih => rw [strLt, if_neg (lt_irrefl a), if_neg (lt_irrefl a), ih]

theorem strLt_ne {a b : QStr} (h : strLt a b = true) : a ≠ b := by
  intro he
  subst he
  rw [strLt_irrefl] at h
  exact Bool.noConfusion h

theorem entryStr_ne_nil (p : QStr × Int) : entryStr p ≠ [] := by
  unfold entryStr
  cases h : p.1 <;> simp

theorem appendToBack_snoc (l : List QStr) (k s : QStr) :
    appendToBack (l ++ [k]) s = l ++ [k ++ s] := by
  induction l with
  | nil => rfl
  | cons x l ih =>
    cases l with
    | nil => rfl
    | cons y l' =>
      simp only [List.cons_append] at ih ⊢
      rw [appendToBack, ih]

theorem encode_go (rest : MMap) :
    ∀ (last : QStr) (acc : List QStr),
      List.Chain (fun a b : QStr => a ≠ b) last (rest.map Prod.fst) →
      (rest.foldl encodeStep (last, acc)).2 = acc ++ rest.map entryStr := by
  induction rest with
  | nil => intro last acc _; simp
  | cons p rest ih =>
    intro last acc h
    obtain ⟨k, v⟩ := p
    rw [List.map_cons, List.chain_cons] at h
    obtain ⟨hne, hch⟩ := h
    have hstep : encodeStep (last, acc) (k, v) = (k, acc ++ [entryStr (k, v)]) := by
      unfold encodeStep
      rw [if_neg (fun he : k = last => hne he.symm), appendToBack_snoc]
      rfl
    rw [List.foldl_cons, hstep, ih k (acc ++ [entryStr (k, v)]) hch, List.map_cons]
    simp

theorem chain_ne_keys (m : MMap)
    (hs : List.Pairwise (fun p q : QStr × Int => strLt p.1 q.1 = true) m) :
    ∀ a : QStr, (∀ p ∈ m, a ≠ p.1) →
      List.Chain (fun x y : QStr => x ≠ y) a (m.map Prod.fst) := by
  induction m with
  | nil => intro a _; exact List.Chain.nil
  | cons p m' ih =>
    intro a ha
    rw [List.map_cons, List.chain_cons]
    have hs' := List.pairwise_cons.mp hs
    exact ⟨ha p (List.mem_cons_self p m'),
      ih hs'.2 p.1 (fun q hq => strLt_ne (hs'.1 q hq))⟩

theorem settingsListOfMap_eq (m : MMap)
    (hs : List.Pairwise (fun p q : QStr × Int => strLt p.1 q.1 = true) m)
    (hk : ∀ p ∈ m, p.1 ≠ []) :
    settingsListOfMap m = m.map entryStr ++ [[]] := by
  unfold settingsListOfMap
  rw [encode_go m [] [] (chain_ne_keys m hs [] (fun p hp he => hk p hp he.symm))]
  simp

theorem mmInsert_append (l : MMap) (k : QStr) (v : Int)
    (h : ∀ p ∈ l, strLt p.1 k = true) :
    mmInsert l k v = l ++ [(k, v)] := by
  induction l with
  | nil => rfl
  | cons p rest ih =>
    obtain ⟨k0, v0⟩ := p
    rw [mmInsert, if_pos (h (k0, v0) (List.mem_cons_self _ _)),
      ih (fun q hq => h q (List.mem_cons_of_mem _ hq))]
    rfl

theorem mmKey_not_mem (l : MMap) (v : Int) (h : v ∉ l.map Prod.snd) :
    mmKey l v = [] := by
  induction l with
  | nil => rfl
  | cons p rest ih =>
    obtain ⟨k0, v0⟩ := p
    rw [List.map_cons, List.mem_cons] at h
    push_neg at h
    rw [mmKey, if_neg (fun he : v0 = v => h.1 he.symm), ih h.2]

theorem decodeEntries_encode (post : MMap) :
    ∀ pre : MMap,
      (∀ p ∈ pre, ∀ q ∈ post, strLt p.1 q.1 = true) →
      List.Pairwise (fun p q : QStr × Int => strLt p.1 q.1 = true) post →
      (∀ q ∈ post, q.1 ≠ [] ∧ ',' ∉ q.1) →
      ((pre ++ post).map Prod.snd).Nodup →
      decodeEntries pre (post.map entryStr ++ [[]]) = pre ++ post := by
  induction post with
  | nil => intro pre _ _ _ _; simp [decodeEntries]
  | cons q post ih =>
    intro pre hcross hsorted hkeys hnodup
    obtain ⟨k, v⟩ := q
    have hk := hkeys (k, v) (List.mem_cons_self _ _)
    have hsplit : splitOnComma (entryStr (k, v)) = [k, qNumber v] := by
      unfold entryStr
      rw [splitOnComma_append _ hk.2, splitOnComma_no_comma (qNumber_no_comma v)]
    have hvpre : v ∉ pre.map Prod.snd := by
      rw [List.map_append, List.map_cons, List.nodup_append] at hnodup
      exact fun hv => hnodup.2.2 hv (List.mem_cons_self _ _)
    have hins : insertTokens pre [k, qNumber v] = pre ++ [(k, v)] := by
      rw [insertTokens, List.foldl_cons, List.foldl_nil, qToInt_qNumber]
      unfold insertChecked
      rw [mmKey_not_mem pre v hvpre, if_pos rfl,
        mmInsert_append pre k v (fun p hp => hcross p hp (k, v) (List.mem_cons_self _ _))]
    rw [List.map_cons, List.cons_append, decodeEntries,
      if_neg (entryStr_ne_nil (k, v)), hsplit]
    rw [if_neg (by simp), hins]
    have hs' := List.pairwise_cons.mp hsorted
    rw [ih (pre ++ [(k, v)])
      (fun p hp q' hq' => by
        rcases List.mem_append.mp hp with hp' | hp'
        · exact hcross p hp' q' (List.mem_cons_of_mem _ hq')
        · rcases List.mem_singleton.mp hp' with rfl
          exact hs'.1 q' hq')
      hs'.2
      (fun q' hq' => hkeys q' (List.mem_cons_of_mem _ hq'))
      (by simpa [List.append_assoc] using hnodup)]
    simp

theorem decodeLoopRel_det (store : Nat → QStr) {i : Nat} {m r₁ : MMap}
    (h1 : DecodeLoopRel store i m r₁) :
    ∀ {r₂ : MMap}, DecodeLoopRel store i m r₂ → r₁ = r₂ := by
  induction h1 with
  | stopEmpty i m he =>
    intro r₂ h2
    cases h2 with
    | stopEmpty _ _ _ => rfl
    | stopTokens _ _ hne _ => exact absurd he hne
    | step _ _ _ hne _ _ => exact absurd he hne
  | stopTokens i m hne hlen =>
    intro r₂ h2
    cases h2 with
    | stopEmpty _ _ he => exact absurd he hne
    | stopTokens _ _ _ _ => rfl
    | step _ _ _ _ hnl _ => exact absurd hlen hnl
  | step i m r hne hnl _ ih =>
    intro r₂ h2
    cases h2 with
    | stopEmpty _ _ he => exact absurd he hne
    | stopTokens _ _ _ hlen => exact absurd hlen hnl
    | step _ _ _ _ _ hrec2 => exact ih hrec2

theorem writeSettingsRel_det {m : MMap} {store w₁ : List QStr}
    (h1 : WriteSettingsRel m store w₁) :
    ∀ {w₂ : List QStr}, WriteSettingsRel m store w₂ → w₁ = w₂ := by
  cases h1 with
  | unchanged he =>
    intro w₂ h2
    cases h2 with
    | unchanged _ => rfl
    | rewritten hne => exact absurd he hne
  | rewritten hne =>
    intro w₂ h2
    cases h2 with
    | unchanged he => exact absurd he hne
    | rewritten _ => rfl

theorem decodeLoopFuel_isSome (store : Nat → QStr) :
    ∀ (fuel i : Nat) (m : MMap),
      (∃ j, i ≤ j ∧ j < i + fuel ∧
        (store j = [] ∨ (splitOnComma (store j)).length < 2)) →
      ∃ r, decodeLoopFuel store fuel i m = some r := by
  intro fuel
  induction fuel with
  | zero =>
    intro i m h
    obtain ⟨j, hij, hjlt, _⟩ := h
    omega
  | succ fuel ih =>
    intro i m h
    obtain ⟨j, hij, hjlt, hstop⟩ := h
    rw [decodeLoopFuel]
    by_cases h1 : store i = []
    · exact ⟨m, by rw [if_pos h1]⟩
    · rw [if_neg h1]
      by_cases h2 : (splitOnComma (store i)).length < 2
      · exact ⟨m, by rw [if_pos h2]⟩
      · rw [if_neg h2]
        apply ih
        have hne : j ≠ i := by
          intro he
          subst he
          rcases hstop with h' | h'
          · exact h1 h'
          · exact h2 h'
        exact ⟨j, by omega, by omega, hstop⟩

theorem decodeLoopFuel_mono (store : Nat → QStr) :
    ∀ (fuel fuel' i : Nat) (m r : MMap), fuel ≤ fuel' →
      decodeLoopFuel store fuel i m = some r →
      decodeLoopFuel store fuel' i m = some r := by
  intro fuel
  induction fuel with
  | zero =>
    intro fuel' i m r _ h
    rw [decodeLoopFuel] at h
    exact Option.noConfusion h
  | succ fuel ih =>
    intro fuel' i m r hle h
    rcases fuel' with _ | fuel'
    · omega
    · rw [decodeLoopFuel] at h ⊢
      by_cases h1 : store i = []
      · rw [if_pos h1] at h ⊢; exact h
      · rw [if_neg h1] at h ⊢
        by_cases h2 : (splitOnComma (store i)).length < 2
        · rw [if_pos h2] at h ⊢; exact h
        · rw [if_neg h2] at h ⊢
          exact ih fuel' (i + 1) _ r (by omega) h

/-- C1 (counterexample): the canonical two-toolchain map "gdb" -> 1, 2 is
non-empty, each toolchain is bound to at most one binary, its binary is
non-empty and comma-free, yet writing it and decoding the written store yields
"gdb" -> 2, 1: `QMultiMap` insertion reverses the run, so the round trip is
not the identity. -/
theorem c1_roundtrip_counterexample :
    ([(['g', 'd', 'b'], 1), (['g', 'd', 'b'], 2)] : MMap) ≠ [] ∧
    isCanonicalMMap [(['g', 'd', 'b'], 1), (['g', 'd', 'b'], 2)] = true ∧
    (([(['g', 'd', 'b'], 1), (['g', 'd', 'b'], 2)] : MMap).map Prod.snd).Nodup ∧
    (∀ p ∈ ([(['g', 'd', 'b'], 1), (['g', 'd', 'b'], 2)] : MMap), p.1 ≠ [] ∧ ',' ∉ p.1) ∧
    gdbBinaryToolChainMapFromSettings
        (writeSettings [(['g', 'd', 'b'], 1), (['g', 'd', 'b'], 2)] []) ≠
      [(['g', 'd', 'b'], 1), (['g', 'd', 'b'], 2)] := by
  decide

/-- C1 (amended): for every non-empty gdb-binary-to-toolchain map whose
binaries are strictly sorted (so each binary carries exactly one toolchain),
non-empty and comma-free, and in which each toolchain is bound to at most one
binary, persisting with `writeSettings` into any settings store and decoding
that store with `gdbBinaryToolChainMapFromSettings` yields the same map. -/
theorem c1_settings_roundtrip (m : MMap) (store : List QStr)
    (hne : m ≠ [])
    (hsorted : List.Pairwise (fun p q : QStr × Int => strLt p.1 q.1 = true) m)
    (hkeys : ∀ p ∈ m, p.1 ≠ [] ∧ ',' ∉ p.1)
    (hvals : (m.map Prod.snd).Nodup) :
    gdbBinaryToolChainMapFromSettings (writeSettings m store) = m := by
  unfold writeSettings
  by_cases hg : m = gdbBinaryToolChainMapFromSettings store
  · rw [if_pos hg]
    exact hg.symm
  · rw [if_neg hg, settingsListOfMap_eq m hsorted (fun p hp => (hkeys p hp).1)]
    unfold gdbBinaryToolChainMapFromSettings
    rw [decodeEntries_encode m [] (by simp) hsorted hkeys (by simpa using hvals)]
    simp [hne]

/-- C1 (witness): the map "a" -> 1, "b" -> 2 round-trips through an empty
store. -/
theorem c1_roundtrip_witness :
    gdbBinaryToolChainMapFromSettings
        (writeSettings [([ 'a' ], 1), ([ 'b' ], 2)] []) =
      [([ 'a' ], 1), ([ 'b' ], 2)] :=
  c1_settings_roundtrip [([ 'a' ], 1), ([ 'b' ], 2)] []
    (by decide) (by decide) (by decide) (by decide)

/-- C4: for every store valuation with some index `n >= 1` whose value is empty
or has fewer than two comma-separated tokens, the reading loop of
`gdbBinaryToolChainMapFromSettings` terminates: fuel `n` already suffices, and
every larger fuel returns the same result. -/
theorem c4_decode_loop_terminates (store : Nat → QStr) (n : Nat)
    (hn : 1 ≤ n)
    (hstop : store n = [] ∨ (splitOnComma (store n)).length < 2) :
    ∃ r, decodeLoopFuel store n 1 [] = some r ∧
      ∀ fuel, n ≤ fuel → decodeLoopFuel store fuel 1 [] = some r := by
  obtain ⟨r, hr⟩ := decodeLoopFuel_isSome store n 1 [] ⟨n, hn, by omega, hstop⟩
  exact ⟨r, hr, fun fuel hf => decodeLoopFuel_mono store n fuel 1 [] r hf hr⟩

/-- C4 (witness): the all-empty store stops the loop at index 1. -/
theorem c4_decode_loop_witness :
    ∃ r, decodeLoopFuel (fun _ => ([] : QStr)) 1 1 [] = some r ∧
      ∀ fuel, 1 ≤ fuel → decodeLoopFuel (fun _ => ([] : QStr)) fuel 1 [] = some r :=
  c4_decode_loop_terminates (fun _ => []) 1 (by decide) (Or.inl rfl)

/-- C8: when the in-memory gdb-binary-to-toolchain map equals the map decoded
from the store, `writeSettings` leaves the gdb-binaries settings group
unchanged: the guard returns before any key is removed or written. -/
theorem c8_write_settings_frame (m : MMap) (store : List QStr)
    (h : gdbBinaryToolChainMapFromSettings store = m) :
    writeSettings m store = store := by
  unfold writeSettings
  rw [if_pos h.symm]

/-- C8 (witness): the empty store decodes to the Unix default map, so writing
that map back leaves the store unchanged. -/
theorem c8_write_settings_witness : writeSettings linuxDefaults [] = [] :=
  c8_write_settings_frame linuxDefaults [] (by decide)

/-- C5: for every code registered in the `DebuggerSettings` registry,
`theDebuggerBoolSetting` returns the boolean conversion of the registered
`SavedAction`'s value, and `theDebuggerStringSetting` its string conversion. -/
theorem c5_settings_by_code (s : DebuggerSettings) (code : Int) (a : SavedAction)
    (h : findCode s.items code = some a) :
    theDebuggerBoolSetting s code = some a.value.toBool ∧
    theDebuggerStringSetting s code = some a.value.toQString := by
  unfold theDebuggerBoolSetting theDebuggerStringSetting DebuggerSettings.item
  rw [h]
  exact ⟨rfl, rfl⟩

/-- C5 (witness): a registry binding code 0 to a true boolean action. -/
theorem c5_settings_witness :
    theDebuggerBoolSetting ⟨[(0, ⟨QVariant.vBool true, [], QVariant.invalid⟩)]⟩ 0 =
        some true ∧
    theDebuggerStringSetting ⟨[(0, ⟨QVariant.vBool true, [], QVariant.invalid⟩)]⟩ 0 =
        some ['t', 'r', 'u', 'e'] :=
  c5_settings_by_code ⟨[(0, ⟨QVariant.vBool true, [], QVariant.invalid⟩)]⟩ 0
    ⟨QVariant.vBool true, [], QVariant.invalid⟩ rfl

/-- C6: `insertItem` with an already-registered code leaves the registry
unchanged, and the previously registered action stays bound to the code. -/
theorem c6_insert_duplicate (s : DebuggerSettings) (code : Int)
    (item a : SavedAction) (h : findCode s.items code = some a) :
    s.insertItem code item = s ∧ (s.insertItem code item).item code = some a := by
  have hc : s.containsCode code = true := by
    unfold DebuggerSettings.containsCode
    rw [h]
    rfl
  unfold DebuggerSettings.insertItem
  rw [if_pos hc]
  exact ⟨rfl, h⟩

/-- C6 (witness): re-inserting at the registered code 1 changes nothing. -/
theorem c6_insert_duplicate_witness :
    DebuggerSettings.insertItem ⟨[(1, ⟨QVariant.vInt 5, [], QVariant.invalid⟩)]⟩ 1
        ⟨QVariant.vInt 7, [], QVariant.invalid⟩ =
      ⟨[(1, ⟨QVariant.vInt 5, [], QVariant.invalid⟩)]⟩ ∧
    (DebuggerSettings.insertItem ⟨[(1, ⟨QVariant.vInt 5, [], QVariant.invalid⟩)]⟩ 1
        ⟨QVariant.vInt 7, [], QVariant.invalid⟩).item 1 =
      some ⟨QVariant.vInt 5, [], QVariant.invalid⟩ :=
  c6_insert_duplicate ⟨[(1, ⟨QVariant.vInt 5, [], QVariant.invalid⟩)]⟩ 1
    ⟨QVariant.vInt 7, [], QVariant.invalid⟩
    ⟨QVariant.vInt 5, [], QVariant.invalid⟩ rfl

/-- C7: `item` is total at the public interface: with no action registered for
the code it returns the null pointer (`none`) instead of failing, and being a
`const` method it never modifies the registry. -/
theorem c7_item_total (s : DebuggerSettings) (code : Int) :
    (findCode s.items code = none → (s.itemSt code).1 = none) ∧
    (s.itemSt code).2 = s :=
  ⟨fun h => h, rfl⟩

/-- C7 (witness): querying code 0 of the empty registry. -/
theorem c7_item_total_witness :
    (DebuggerSettings.itemSt ⟨[]⟩ 0).1 = none ∧
    (DebuggerSettings.itemSt ⟨[]⟩ 0).2 = (⟨[]⟩ : DebuggerSettings) :=
  ⟨(c7_item_total ⟨[]⟩ 0).1 rfl, (c7_item_total ⟨[]⟩ 0).2⟩

/-- C10: every provided operation is deterministic: two executions of the
settings-decoding loop, of the gdb-binaries write, or of a registry query from
equal starting state with equal arguments produce equal results and equal
final state. -/
theorem c10_operations_deterministic (store : Nat → QStr) (i : Nat)
    (m r₁ r₂ : MMap) (mm : MMap) (st w₁ w₂ : List QStr)
    (s : DebuggerSettings) (code : Int)
    (o₁ o₂ : Option SavedAction × DebuggerSettings) :
    (DecodeLoopRel store i m r₁ → DecodeLoopRel store i m r₂ → r₁ = r₂) ∧
    (WriteSettingsRel mm st w₁ → WriteSettingsRel mm st w₂ → w₁ = w₂) ∧
    (ItemRel s code o₁ → ItemRel s code o₂ → o₁ = o₂) := by
  refine ⟨?_, ?_, ?_⟩
  · intro h1 h2
    exact decodeLoopRel_det store h1 h2
  · intro h1 h2
    exact writeSettingsRel_det h1 h2
  · intro h1 h2
    cases h1
    cases h2
    rfl

/-- C10 (witness): the loop stopping at an all-empty store, the identity
write of the default map, and a query of the empty registry. -/
theorem c10_deterministic_witness :
    ([] : MMap) = [] ∧ ([] : List QStr) = [] ∧
    (some (⟨QVariant.vInt 5, [], QVariant.invalid⟩ : SavedAction),
      (⟨[(0, ⟨QVariant.vInt 5, [], QVariant.invalid⟩)]⟩ : DebuggerSettings)) =
    (some ⟨QVariant.vInt 5, [], QVariant.invalid⟩,
      ⟨[(0, ⟨QVariant.vInt 5, [], QVariant.invalid⟩)]⟩) :=
  ⟨(c10_operations_deterministic (fun _ => []) 1 [] [] [] linuxDefaults [] [] []
      ⟨[]⟩ 0 (none, ⟨[]⟩) (none, ⟨[]⟩)).1
      (DecodeLoopRel.stopEmpty 1 [] rfl) (DecodeLoopRel.stopEmpty 1 [] rfl),
   (c10_operations_deterministic (fun _ => []) 1 [] [] [] linuxDefaults [] [] []
      ⟨[]⟩ 0 (none, ⟨[]⟩) (none, ⟨[]⟩)).2.1
      (WriteSettingsRel.unchanged (by decide)) (WriteSettingsRel.unchanged (by decide)),
   (c10_operations_deterministic (fun _ => []) 1 [] [] [] linuxDefaults [] []
      [] ⟨[(0, ⟨QVariant.vInt 5, [], QVariant.invalid⟩)]⟩ 0 _ _).2.2
      ItemRel.query ItemRel.query⟩

theorem lookupHeight_ge (hs : List (Nat × Nat)) (row : Nat)
    (h : ∀ p ∈ hs, defaultRowHeight ≤ p.2) :
    defaultRowHeight ≤ lookupHeight hs row := by
  induction hs with
  | nil => exact Nat.le_refl _
  | cons p rest ih =>
    obtain ⟨r, h0⟩ := p
    rw [lookupHeight]
    by_cases hr : r = row
    · rw [if_pos hr]
      exact h (r, h0) (List.mem_cons_self _ _)
    · rw [if_neg hr]
      exact ih (fun q hq => h q (List.mem_cons_of_mem _ hq))

theorem lookupHeight_store (hs : List (Nat × Nat)) (row h : Nat) :
    lookupHeight (storeHeight hs row h) row = h := by
  induction hs with
  | nil => simp [storeHeight, lookupHeight]
  | cons p rest ih =>
    obtain ⟨r, h0⟩ := p
    rw [storeHeight]
    by_cases hr : r = row
    · rw [if_pos hr, lookupHeight, if_pos rfl]
    · rw [if_neg hr, lookupHeight, if_neg hr, ih]

theorem storeHeight_wf (hs : List (Nat × Nat)) (row h : Nat)
    (hwf : ∀ p ∈ hs, defaultRowHeight ≤ p.2) (hh : defaultRowHeight ≤ h) :
    ∀ p ∈ storeHeight hs row h, defaultRowHeight ≤ p.2 := by
  induction hs with
  | nil =>
    intro p hp
    rw [storeHeight] at hp
    rcases List.mem_singleton.mp hp with rfl
    exact hh
  | cons q rest ih =>
    intro p hp
    obtain ⟨r, h0⟩ := q
    rw [storeHeight] at hp
    by_cases hr : r = row
    · rw [if_pos hr] at hp
      rcases List.mem_cons.mp hp with rfl | hp'
      · exact hh
      · exact hwf p (List.mem_cons_of_mem _ hp')
    · rw [if_neg hr] at hp
      rcases List.mem_cons.mp hp with rfl | hp'
      · exact hwf _ (List.mem_cons_self _ _)
      · exact ih (fun q hq => hwf q (List.mem_cons_of_mem _ hq)) p hp'

/-- C2: timeline row heights: with well-formed stored heights `rowHeight`
never reports less than the default 30; `setRowHeight` is a no-op while not
expanded and for heights below the default, and preserves well-formedness;
while collapsed every row reports the default; a height set while expanded is
reported again after collapsing and re-expanding. -/
theorem c2_row_height (s : TimelineModel) (row h : Nat) :
    (heightsWF s → defaultRowHeight ≤ s.rowHeight row) ∧
    (s.expanded = false → s.setRowHeight row h = s) ∧
    (h < defaultRowHeight → s.setRowHeight row h = s) ∧
    (s.expanded = false → s.rowHeight row = defaultRowHeight) ∧
    (heightsWF s → heightsWF (s.setRowHeight row h)) ∧
    (s.expanded = true → defaultRowHeight ≤ h →
      ((((s.setRowHeight row h).setExpanded false).1.setExpanded true).1.rowHeight row
        = h)) := by
  refine ⟨?_, ?_, ?_, ?_, ?_, ?_⟩
  · intro hwf
    unfold TimelineModel.rowHeight
    by_cases he : s.expanded
    · rw [if_pos he]
      exact lookupHeight_ge s.rowHeights row hwf
    · rw [if_neg he]
  · intro he
    unfold TimelineModel.setRowHeight
    rw [if_pos he]
  · intro hh
    unfold TimelineModel.setRowHeight
    by_cases he : s.expanded = false
    · rw [if_pos he]
    · rw [if_neg he, if_pos hh]
  · intro he
    unfold TimelineModel.rowHeight
    rw [if_neg (fun ht : s.expanded = true => by rw [he] at ht; exact Bool.noConfusion ht)]
  · intro hwf
    unfold TimelineModel.setRowHeight
    by_cases he : s.expanded = false
    · rw [if_pos he]
      exact hwf
    · rw [if_neg he]
      by_cases hh : h < defaultRowHeight
      · rw [if_pos hh]
        exact hwf
      · rw [if_neg hh]
        exact storeHeight_wf s.rowHeights row h hwf (by omega)
  · intro hexp hh
    obtain ⟨e, hid, rh⟩ := s
    simp only [TimelineModel.expanded] at hexp
    subst hexp
    have h30 : ¬ h < defaultRowHeight := by omega
    simp [TimelineModel.setRowHeight, TimelineModel.setExpanded,
      TimelineModel.rowHeight, h30, lookupHeight_store]

/-- C2 (witness): a collapsed model reports and keeps the default; a height of
100 set while expanded survives collapsing and re-expanding. -/
theorem c2_row_height_witness :
    defaultRowHeight ≤ TimelineModel.rowHeight ⟨false, false, []⟩ 0 ∧
    TimelineModel.setRowHeight ⟨false, false, []⟩ 0 100 = ⟨false, false, []⟩ ∧
    (((TimelineModel.setRowHeight ⟨true, false, []⟩ 0 100).setExpanded
        false).1.setExpanded true).1.rowHeight 0 = 100 :=
  ⟨(c2_row_height ⟨false, false, []⟩ 0 100).1 (by intro p hp; simp at hp),
   (c2_row_height ⟨false, false, []⟩ 0 100).2.1 rfl,
   (c2_row_height ⟨true, false, []⟩ 0 100).2.2.2.2.2 rfl (by decide)⟩

/-- C3: `setExpanded b` makes `expanded` report `b` and signals
`expandedChanged` exactly when the stored flag changes; `setHidden` likewise
for `hidden`; re-setting the current value emits no signal. -/
theorem c3_signal_exactness (s : TimelineModel) (b : Bool) :
    ((s.setExpanded b).1.expanded = b) ∧
    ((s.setExpanded b).2 = true ↔ s.expanded ≠ b) ∧
    ((s.setHidden b).1.hidden = b) ∧
    ((s.setHidden b).2 = true ↔ s.hidden ≠ b) := by
  obtain ⟨e, hid, rh⟩ := s
  cases b <;> cases e <;> cases hid <;>
    simp [TimelineModel.setExpanded, TimelineModel.setHidden]

/-- C9: `colorByHue h` is the HSL color with hue `h` modulo 360, saturation
150 and lightness 166; in particular `colorByHue 500` has hue 140, and
`colorBySelectionId i` uses hue `i * 25` modulo 360. -/
theorem c9_color_by_hue (h i : Int) :
    colorByHue h = ⟨h % 360, 150, 166⟩ ∧
    colorByHue 500 = ⟨140, 150, 166⟩ ∧
    colorBySelectionId i = ⟨(i * 25) % 360, 150, 166⟩ :=
  ⟨rfl, by decide, rfl⟩
